import Mathlib

/-!
Verification of the Rummikub solver repository's tile model and state
handling (`src/main.rs`), together with a model of the solver facade
described by the specification.  Rust strings are embedded as lists of
unicode scalar values (`List Char`); `u8` numbers are embedded as `Nat`
with explicit range conditions where they matter; fallible operations
return `Option`, with `none` marking a panic.
-/

namespace Rummikub

/-- The `Colour` enum of `src/main.rs` (declaration order Red, Blue,
Yellow, Black, which fixes the derived ordering). -/
inductive Colour
  | Red
  | Blue
  | Yellow
  | Black
deriving DecidableEq, Repr

/-- `Colour::get_char`: the parse/render character of each colour. -/
def Colour.get_char : Colour → Char
  | .Red => 'r'
  | .Blue => 'b'
  | .Yellow => 'y'
  | .Black => 'x'

/-- The inverse direction of the colour-character match in
`Tile::from_str` (`'r' | 'b' | 'y' | 'x'`, anything else is no colour). -/
def colourOf (c : Char) : Option Colour :=
  if c = 'r' then some .Red
  else if c = 'b' then some .Blue
  else if c = 'y' then some .Yellow
  else if c = 'x' then some .Black
  else none

/-- The `Tile` enum of `src/main.rs` (declaration order `Normal`,
`Joker`); the `u8` payload is embedded as `Nat`. -/
inductive Tile
  | Normal (c : Colour) (n : Nat)
  | Joker
deriving DecidableEq, Repr

/-- Number of bytes of the UTF-8 encoding of a character; Rust's
`str::len` (used by the `string.len()` match in `Tile::from_str`)
counts bytes of this encoding. -/
def charBytes (c : Char) : Nat :=
  if c.toNat < 128 then 1
  else if c.toNat < 2048 then 2
  else if c.toNat < 65536 then 3
  else 4

/-- Rust `str::len`: total UTF-8 byte length of a string. -/
def utf8Len (s : List Char) : Nat :=
  (s.map charBytes).sum

/-- One step of Rust's `u8::from_str` digit loop: multiply the
accumulator by ten and add the digit, failing on a non-digit byte or on
overflow past `u8::MAX = 255`. -/
def stepU8 (acc : Option Nat) (c : Char) : Option Nat :=
  match acc with
  | none => none
  | some a =>
    if c.isDigit then
      if a * 10 + (c.toNat - 48) ≤ 255 then some (a * 10 + (c.toNat - 48)) else none
    else none

/-- Rust `u8::from_str` (`from_str_radix` at radix ten): an optional
leading `'+'` (a lone `'+'` is an error; `'-'` is rejected for unsigned
types by falling into the digit loop), then one or more decimal digits,
overflow-checked against 255. -/
def parseU8 (s : List Char) : Option Nat :=
  match s with
  | [] => none
  | '+' :: rest => if rest.isEmpty then none else rest.foldl stepU8 (some 0)
  | _ => s.foldl stepU8 (some 0)

/-- The five `&'static str` error messages of `Tile::from_str`. -/
inductive PErr
  | noString
  | notJoker
  | invalidColour
  | invalidNumber
  | numberOutOfRange
deriving DecidableEq, Repr

/-- `Result<Tile, &'static str>` as returned by `Tile::from_str`. -/
inductive PRes
  | ok (t : Tile)
  | err (e : PErr)
deriving DecidableEq, Repr

/-- `Tile::from_str` of `src/main.rs`: match on the byte length of the
input; empty is an error, a single byte must be `"j"`, otherwise the
first character selects a colour and the remaining characters are fed
to `u8::from_str` and range-checked against `[1, 13]`.  The `unwrap`
on `chars().next()` is modelled by `Option`: the outer `none` is a
panic. -/
def Tile.from_str (s : List Char) : Option PRes :=
  match utf8Len s with
  | 0 => some (.err .noString)
  | 1 => if s = ['j'] then some (.ok .Joker) else some (.err .notJoker)
  | _ + 2 =>
    match s.head? with
    | none => none
    | some c0 =>
      match colourOf c0 with
      | none => some (.err .invalidColour)
      | some col =>
        match parseU8 (s.drop 1) with
        | none => some (.err .invalidNumber)
        | some n =>
          if 1 ≤ n ∧ n ≤ 13 then some (.ok (.Normal col n))
          else some (.err .numberOutOfRange)

/-- Decimal rendering of a `u8` as Rust's `Display` produces it:
most-significant digit first, `"0"` for zero. -/
def numChars (n : Nat) : List Char :=
  if n = 0 then ['0'] else ((Nat.digits 10 n).map Nat.digitChar).reverse

/-- `Tile::to_string` of `src/main.rs`: a Joker renders as `"j"` with a
space pushed onto it; a Normal tile renders via
`format!("{}{} ", colour_char, number)`. -/
def Tile.to_string : Tile → List Char
  | .Joker => ['j'] ++ [' ']
  | .Normal c n => [c.get_char] ++ numChars n ++ [' ']

/-- `slice::chunks(10)` as used by `Tile::format_list`: no chunks for an
empty slice, otherwise the first ten elements and then the chunks of the
rest. -/
def chunks10 (l : List Tile) : List (List Tile) :=
  match l with
  | [] => []
  | x :: xs => (x :: xs).take 10 :: chunks10 ((x :: xs).drop 10)
termination_by l.length
decreasing_by simp; omega

/-- `Tile::format_list` of `src/main.rs`: for each chunk of ten tiles,
append every tile's rendering and push a newline. -/
def Tile.format_list (list : List Tile) : List Char :=
  (chunks10 list).foldl
    (fun s ts => (ts.foldl (fun s2 t => s2 ++ t.to_string) s) ++ ['\n']) []

/-- Rust's `Ord` on machine integers. -/
def natCmp (m n : Nat) : Ordering :=
  if m < n then .lt else if n < m then .gt else .eq

/-- Discriminant of a `Colour`, in declaration order. -/
def Colour.idx : Colour → Nat
  | .Red => 0
  | .Blue => 1
  | .Yellow => 2
  | .Black => 3

/-- The `Ord` derived for `Colour`: variants compare by declaration
order. -/
def Colour.cmp (a b : Colour) : Ordering :=
  natCmp a.idx b.idx

/-- The `Ord` derived for `Tile`: `Normal` (declared first) is below
`Joker`, and two `Normal` tiles compare lexicographically by their
fields, colour first. -/
def Tile.cmp : Tile → Tile → Ordering
  | .Normal c₁ n₁, .Normal c₂ n₂ => (Colour.cmp c₁ c₂).then (natCmp n₁ n₂)
  | .Normal _ _, .Joker => .lt
  | .Joker, .Normal _ _ => .gt
  | .Joker, .Joker => .eq

/-- `a <= b` in the derived tile order. -/
def Tile.le (a b : Tile) : Prop := Tile.cmp a b ≠ .gt

/-- `a < b` in the derived tile order. -/
def Tile.lt (a b : Tile) : Prop := Tile.cmp a b = .lt

instance (a b : Tile) : Decidable (Tile.le a b) :=
  inferInstanceAs (Decidable (Tile.cmp a b ≠ .gt))

instance (a b : Tile) : Decidable (Tile.lt a b) :=
  inferInstanceAs (Decidable (Tile.cmp a b = .lt))

lemma natCmp_eq_lt {m n : Nat} : natCmp m n = .lt ↔ m < n := by
  unfold natCmp; split
  · simp [*]
  · split <;> simp <;> omega

lemma natCmp_eq_gt {m n : Nat} : natCmp m n = .gt ↔ n < m := by
  unfold natCmp; split
  · simp; omega
  · split <;> simp <;> omega

lemma natCmp_eq_eq {m n : Nat} : natCmp m n = .eq ↔ m = n := by
  unfold natCmp; split
  · simp; omega
  · split <;> simp <;> omega

lemma natCmp_swap (m n : Nat) : (natCmp m n).swap = natCmp n m := by
  unfold natCmp
  split <;> split <;> simp_all [Ordering.swap]
  omega

lemma colourCmp_swap (a b : Colour) : (Colour.cmp a b).swap = Colour.cmp b a := by
  unfold Colour.cmp; exact natCmp_swap _ _

lemma colourCmp_eq_eq {a b : Colour} : Colour.cmp a b = .eq ↔ a = b := by
  cases a <;> cases b <;> simp [Colour.cmp, Colour.idx, natCmp]

lemma then_swap (a b : Ordering) : (a.then b).swap = a.swap.then b.swap := by
  cases a <;> cases b <;> rfl

lemma Tile.cmp_swap (a b : Tile) : (Tile.cmp a b).swap = Tile.cmp b a := by
  cases a <;> cases b
  case Normal.Normal c₁ n₁ c₂ n₂ =>
    show ((Colour.cmp c₁ c₂).then (natCmp n₁ n₂)).swap
        = (Colour.cmp c₂ c₁).then (natCmp n₂ n₁)
    rw [then_swap, colourCmp_swap, natCmp_swap]
  all_goals rfl

lemma Tile.cmp_eq_eq {a b : Tile} : Tile.cmp a b = .eq ↔ a = b := by
  cases a <;> cases b <;> simp [Tile.cmp]
  case Normal.Normal c₁ n₁ c₂ n₂ =>
    cases h : Colour.cmp c₁ c₂ <;> simp [Ordering.then, natCmp_eq_eq]
    · rintro rfl
      rw [colourCmp_eq_eq.mpr rfl] at h
      exact absurd h (by simp)
    · exact fun _ => colourCmp_eq_eq.mp h
    · rintro rfl
      rw [colourCmp_eq_eq.mpr rfl] at h
      exact absurd h (by simp)

lemma Tile.cmp_refl (a : Tile) : Tile.cmp a a = .eq :=
  Tile.cmp_eq_eq.mpr rfl

lemma Tile.cmp_eq_lt_iff_gt {a b : Tile} :
    Tile.cmp a b = .lt ↔ Tile.cmp b a = .gt := by
  rw [← Tile.cmp_swap a b]
  cases Tile.cmp a b <;> simp [Ordering.swap]

lemma Tile.lt_trans {a b c : Tile} :
    Tile.lt a b → Tile.lt b c → Tile.lt a c := by
  unfold Tile.lt
  cases a <;> cases b <;> cases c <;> simp [Tile.cmp]
  case Normal.Normal.Normal c₁ n₁ c₂ n₂ c₃ n₃ =>
    cases c₁ <;> cases c₂ <;> cases c₃ <;>
      simp [Colour.cmp, Colour.idx, natCmp, Ordering.then] <;> omega

lemma Tile.le_iff {a b : Tile} : Tile.le a b ↔ a = b ∨ Tile.lt a b := by
  unfold Tile.le Tile.lt
  cases h : Tile.cmp a b <;> simp
  · exact Tile.cmp_eq_eq.mp h
  · intro hab
    rw [hab, Tile.cmp_refl] at h
    exact absurd h (by simp)

lemma Tile.le_refl (a : Tile) : Tile.le a a :=
  Tile.le_iff.mpr (Or.inl rfl)

lemma Tile.lt_le {a b : Tile} (h : Tile.lt a b) : Tile.le a b :=
  Tile.le_iff.mpr (Or.inr h)

lemma Tile.le_trans {a b c : Tile} :
    Tile.le a b → Tile.le b c → Tile.le a c := by
  rw [Tile.le_iff, Tile.le_iff, Tile.le_iff]
  rintro (rfl | hab) (rfl | hbc)
  · exact Or.inl rfl
  · exact Or.inr hbc
  · exact Or.inr hab
  · exact Or.inr (Tile.lt_trans hab hbc)

lemma Tile.le_total (a b : Tile) : Tile.le a b ∨ Tile.le b a := by
  unfold Tile.le
  cases h : Tile.cmp a b <;> simp
  rw [← Tile.cmp_swap a b, h]
  simp [Ordering.swap]

/-- `Result<usize, usize>` as returned by `binary_search`. -/
inductive BSearch
  | ok (i : Nat)
  | err (i : Nat)
deriving DecidableEq, Repr

/-- The loop of the standard library's `binary_search_by` (which
`VecDeque::binary_search` delegates to): halve the interval, descending
into the right half on `Less`, the left half on `Greater`, and
returning `Ok(mid)` on `Equal`; `Err(left)` once the interval is
empty.  Element access is in bounds whenever `right <= v.len()`. -/
def bsLoop (v : List Tile) (x : Tile) (left right : Nat) : BSearch :=
  if _h : left < right then
    match Tile.cmp (v.getD (left + (right - left) / 2) Tile.Joker) x with
    | .lt => bsLoop v x (left + (right - left) / 2 + 1) right
    | .gt => bsLoop v x left (left + (right - left) / 2)
    | .eq => .ok (left + (right - left) / 2)
  else .err left
termination_by right - left
decreasing_by all_goals omega

/-- `VecDeque::binary_search(&x)` over the whole deque. -/
def binary_search (v : List Tile) (x : Tile) : BSearch :=
  bsLoop v x 0 v.length

/-- The index carried by a `binary_search` result, ignoring the
`Ok`/`Err` distinction. -/
def BSearch.idx : BSearch → Nat
  | .ok i => i
  | .err i => i

/-- `State::sorted_vec_insert` of `src/main.rs`: binary-search for the
tile and insert it at the reported index, with identical arms for
`Ok(i)` and `Err(i)`. -/
def State.sorted_vec_insert (vec : List Tile) (new_tile : Tile) : List Tile :=
  match binary_search vec new_tile with
  | .ok i => vec.insertIdx i new_tile
  | .err i => vec.insertIdx i new_tile

/-- The `State` struct of `src/main.rs`: the board and hand deques. -/
structure State where
  board : List Tile
  hand : List Tile
deriving DecidableEq, Repr

/-- `State::add_to_board`. -/
def State.add_to_board (s : State) (tile : Tile) : State :=
  { s with board := State.sorted_vec_insert s.board tile }

/-- `State::add_to_hand`. -/
def State.add_to_hand (s : State) (tile : Tile) : State :=
  { s with hand := State.sorted_vec_insert s.hand tile }

/-- The tile order as a boolean relation, for sorting. -/
def tileLeB (a b : Tile) : Bool := decide (Tile.le a b)

/-- The `(colour, number)` pairs of the Normal tiles of a group, in
order. -/
def normalsOf : List Tile → List (Colour × Nat)
  | [] => []
  | .Normal c n :: rest => (c, n) :: normalsOf rest
  | .Joker :: rest => normalsOf rest

/-- Modelled from the spec: the run rule of section 4.2 (the group
validator lives in the missing `src/solver.rs`).  At least one Normal
tile, all Normals of one colour with pairwise distinct numbers, total
size between 3 and 13, numbers within `[1, 13]`, and enough room for
the Jokers: the span of the Normal numbers fits inside the group
length. -/
def isRun (g : List Tile) : Bool :=
  match normalsOf g with
  | [] => false
  | (c0, n0) :: rest =>
    let nums := n0 :: rest.map Prod.snd
    let lo := nums.foldl min n0
    let hi := nums.foldl max n0
    decide (3 ≤ g.length) && decide (g.length ≤ 13) &&
    rest.all (fun p => decide (p.1 = c0)) &&
    decide nums.Nodup &&
    decide (1 ≤ lo) && decide (hi ≤ 13) &&
    decide (hi + 1 ≤ lo + g.length)

/-- Modelled from the spec: the set rule of section 4.2 (the group
validator lives in the missing `src/solver.rs`).  At least one Normal
tile, all Normals of one number with pairwise distinct colours, and
total size 3 or 4 (which bounds the Joker count by the number of
missing colours). -/
def isSet (g : List Tile) : Bool :=
  match normalsOf g with
  | [] => false
  | (c0, n0) :: rest =>
    (decide (g.length = 3) || decide (g.length = 4)) &&
    rest.all (fun p => decide (p.2 = n0)) &&
    decide ((c0 :: rest.map Prod.fst).Nodup)

/-- Modelled from the spec: a legal group is a legal run or a legal
set. -/
def isValidGroup (g : List Tile) : Bool := isRun g || isSet g

/-- Modelled from the spec: every partition of the tile list into valid
groups (the partition search lives in the missing `src/solver.rs`).
Every group must contain the current pivot (the head of the list);
`fuel` bounds the recursion and `l.length` always suffices since groups
are non-empty. -/
def validPartitions (fuel : Nat) (l : List Tile) : List (List (List Tile)) :=
  match fuel, l with
  | _, [] => [[]]
  | 0, _ :: _ => []
  | fuel + 1, t :: rest =>
    rest.sublists.flatMap (fun g =>
      if isValidGroup (t :: g) then
        (validPartitions fuel (rest.diff g)).map (fun p => (t :: g) :: p)
      else [])

/-- Every tile of `a` occurs in `b` at least as often: `a` is a
sub-multiset of `b`. -/
def subCount (a b : List Tile) : Bool :=
  a.all (fun t => decide (a.count t ≤ b.count t))

/-- Modelled from the spec: the objective of section 4.4, as a strict
comparison of candidates — first more hand tiles used (with the board
contained in every candidate, this is more tiles used), then more
groups. -/
def better (a b : List Tile × List (List Tile)) : Bool :=
  decide (b.1.length < a.1.length) ||
  (decide (a.1.length = b.1.length) && decide (b.2.length < a.2.length))

/-- Deterministic selection of the best candidate, preferring the
earlier candidate of the enumeration on remaining ties. -/
def pickBest : List (List Tile × List (List Tile)) →
    Option (List Tile × List (List Tile))
  | [] => none
  | c :: rest =>
    match pickBest rest with
    | none => some c
    | some b => if better b c then some b else some c

/-- Modelled from the spec: the candidate outcomes of a solve call —
every sub-list `U` of `board ++ hand` that contains every board tile
and splits into valid groups, paired with each such splitting. -/
def solveCands (board hand : List Tile) : List (List Tile × List (List Tile)) :=
  (board ++ hand).sublists.flatMap (fun U =>
    if subCount board U then
      (validPartitions U.length U).map (fun p => (U, p))
    else [])

/-- Modelled from the spec: the facade `solve(board, hand)` of
section 4.5, whose implementation `src/solver.rs` is missing from the
repository.  It returns the sorted union of the groups of the best
board-preserving partition together with the sorted leftover, and the
input unchanged when no such partition exists; remaining ties beyond
the section 4.4 objective are settled deterministically by enumeration
order. -/
def solve (board hand : List Tile) : List Tile × List Tile :=
  match pickBest (solveCands board hand) with
  | none => (board, hand)
  | some (U, _) =>
    (U.mergeSort tileLeB, ((board ++ hand).diff U).mergeSort tileLeB)

lemma pickBest_mem {l : List (List Tile × List (List Tile))} {c}
    (h : pickBest l = some c) : c ∈ l := by
  induction l with
  | nil => simp [pickBest] at h
  | cons a rest ih =>
    rw [pickBest] at h
    cases hr : pickBest rest with
    | none => rw [hr] at h; simp at h; simp [h]
    | some b =>
      rw [hr] at h
      by_cases hb : better b a = true
      · simp [hb] at h
        exact List.mem_cons_of_mem _ (ih (h ▸ hr))
      · simp [hb] at h
        simp [h]

lemma solveCands_sublist {board hand : List Tile}
    {c : List Tile × List (List Tile)} (h : c ∈ solveCands board hand) :
    c.1.Sublist (board ++ hand) := by
  unfold solveCands at h
  rw [List.mem_flatMap] at h
  obtain ⟨U, hU, hc⟩ := h
  rw [List.mem_sublists] at hU
  split at hc
  · rw [List.mem_map] at hc
    obtain ⟨p, _, rfl⟩ := hc
    exact hU
  · simp at hc

/-! Statement-side notions: the value of a digit string, what it means
for a token to be a decimal integer, and the four parse-error
categories of the specification's error taxonomy. -/

/-- Value of a most-significant-first digit list. -/
def valNat (l : List Nat) : Nat := l.foldl (fun a d => 10 * a + d) 0

/-- Value of a most-significant-first string of digit characters. -/
def charsVal (ds : List Char) : Nat :=
  ds.foldl (fun a c => 10 * a + (c.toNat - 48)) 0

/-- The number denoted by a non-empty all-digit string, if any. -/
def decDigits (ds : List Char) : Option Nat :=
  if !ds.isEmpty && ds.all Char.isDigit then some (charsVal ds) else none

/-- The integer denoted by a decimal integer token: an optional sign
followed by one or more decimal digits. -/
def denotesDecimal : List Char → Option Int
  | '+' :: rest => (decDigits rest).map Int.ofNat
  | '-' :: rest => (decDigits rest).map (fun n => -(n : Int))
  | ds => (decDigits ds).map Int.ofNat

/-- Parse-error category: empty token. -/
def isEmptyTok (s : List Char) : Bool := s.isEmpty

/-- Parse-error category: unknown colour letter (and not the Joker
token). -/
def isUnknownColourTok (s : List Char) : Bool :=
  match s with
  | [] => false
  | c :: _ => decide (s ≠ ['j']) && (colourOf c).isNone

/-- Parse-error category: a colour letter followed by a remainder that
is not a `u8` numeral (missing, malformed, or overflowing). -/
def isNonNumericTok (s : List Char) : Bool :=
  match s with
  | [] => false
  | c :: rest => (colourOf c).isSome && (parseU8 rest).isNone

/-- Parse-error category: a colour letter followed by a numeral whose
value is outside `[1, 13]`. -/
def isOutOfRangeTok (s : List Char) : Bool :=
  match s with
  | [] => false
  | c :: rest =>
    (colourOf c).isSome &&
      (match parseU8 rest with
       | some n => decide (n < 1 ∨ 13 < n)
       | none => false)

/-! Digit and numeral lemmas. -/

lemma charBytes_pos (c : Char) : 1 ≤ charBytes c := by
  unfold charBytes
  split
  · omega
  · split
    · omega
    · split <;> omega

lemma utf8Len_nil : utf8Len [] = 0 := rfl

lemma utf8Len_cons (c : Char) (t : List Char) :
    utf8Len (c :: t) = charBytes c + utf8Len t := by
  simp [utf8Len]

lemma utf8Len_eq_zero {s : List Char} : utf8Len s = 0 ↔ s = [] := by
  cases s with
  | nil => simp [utf8Len_nil]
  | cons c t =>
    rw [utf8Len_cons]
    have := charBytes_pos c
    simp
    omega

lemma valNat_append (l : List Nat) (d : Nat) :
    valNat (l ++ [d]) = 10 * valNat l + d := by
  simp [valNat, List.foldl_append]

lemma valNat_reverse (l : List Nat) : valNat l.reverse = Nat.ofDigits 10 l := by
  induction l with
  | nil => rfl
  | cons d t ih =>
    rw [List.reverse_cons, valNat_append, ih, Nat.ofDigits_cons]
    ring

lemma digitChar_isDigit {d : Nat} (h : d < 10) :
    (Nat.digitChar d).isDigit = true := by
  interval_cases d <;> decide

lemma digitChar_toNat {d : Nat} (h : d < 10) :
    (Nat.digitChar d).toNat - 48 = d := by
  interval_cases d <;> decide

lemma digitChar_ne_plus {d : Nat} (h : d < 10) : Nat.digitChar d ≠ '+' := by
  interval_cases d <;> decide

lemma charsVal_eq_valNat (ds : List Char) :
    charsVal ds = valNat (ds.map (fun c => c.toNat - 48)) := by
  rw [valNat, List.foldl_map]
  rfl

lemma charsVal_numChars (n : Nat) : charsVal (numChars n) = n := by
  by_cases h : n = 0
  · subst h; rfl
  · rw [numChars, if_neg h, charsVal_eq_valNat, List.map_reverse, List.map_map]
    have hmap :
        ((Nat.digits 10 n).map ((fun c => c.toNat - 48) ∘ Nat.digitChar))
          = Nat.digits 10 n := by
      conv_rhs => rw [← List.map_id (Nat.digits 10 n)]
      apply List.map_congr_left
      intro d hd
      simp only [Function.comp_apply, id_eq]
      exact digitChar_toNat (Nat.digits_lt_base (by norm_num) hd)
    rw [hmap, valNat_reverse, Nat.ofDigits_digits]

lemma numChars_all_digits (n : Nat) :
    (numChars n).all Char.isDigit = true := by
  by_cases h : n = 0
  · subst h; rfl
  · rw [numChars, if_neg h, List.all_eq_true]
    intro c hc
    rw [List.mem_reverse, List.mem_map] at hc
    obtain ⟨d, hd, rfl⟩ := hc
    exact digitChar_isDigit (Nat.digits_lt_base (by norm_num) hd)

lemma numChars_ne_nil (n : Nat) : numChars n ≠ [] := by
  by_cases h : n = 0
  · subst h; simp [numChars]
  · rw [numChars, if_neg h]
    simp [Nat.digits_ne_nil_iff_ne_zero, h]

/-! Characterisation of `parseU8` (the `u8::from_str` model). -/

lemma foldl_stepU8_none (t : List Char) : t.foldl stepU8 none = none := by
  induction t with
  | nil => rfl
  | cons c r ih => rw [List.foldl_cons]; exact ih

lemma isDigit_ne_plus {c : Char} (h : c.isDigit = true) : c ≠ '+' := by
  rintro rfl
  exact absurd h (by decide)

lemma isDigit_ne_minus {c : Char} (h : c.isDigit = true) : c ≠ '-' := by
  rintro rfl
  exact absurd h (by decide)

lemma foldl_stepU8_some {ds : List Char} {a v : Nat}
    (h : ds.foldl stepU8 (some a) = some v) :
    ds.all Char.isDigit = true
      ∧ v = ds.foldl (fun acc c => 10 * acc + (c.toNat - 48)) a := by
  induction ds generalizing a with
  | nil => simp at h; simp [h]
  | cons c t ih =>
    rw [List.foldl_cons] at h
    by_cases hd : c.isDigit = true
    · by_cases hb : a * 10 + (c.toNat - 48) ≤ 255
      · rw [show stepU8 (some a) c = some (a * 10 + (c.toNat - 48)) by
          simp [stepU8, hd, hb]] at h
        obtain ⟨h1, h2⟩ := ih h
        refine ⟨by simp [hd, h1], ?_⟩
        rw [List.foldl_cons, Nat.mul_comm 10 a]
        exact h2
      · rw [show stepU8 (some a) c = none by simp [stepU8, hd, hb]] at h
        exact absurd (foldl_stepU8_none t ▸ h) (by simp)
    · rw [show stepU8 (some a) c = none by simp [stepU8, hd]] at h
      exact absurd (foldl_stepU8_none t ▸ h) (by simp)

lemma foldVal_ge (a : Nat) (ds : List Char) :
    a ≤ ds.foldl (fun acc c => 10 * acc + (c.toNat - 48)) a := by
  induction ds generalizing a with
  | nil => exact Nat.le_refl a
  | cons c t ih =>
    rw [List.foldl_cons]
    exact Nat.le_trans (by omega) (ih (10 * a + (c.toNat - 48)))

lemma foldl_stepU8_of_le {ds : List Char} {a : Nat}
    (hd : ds.all Char.isDigit = true)
    (hb : ds.foldl (fun acc c => 10 * acc + (c.toNat - 48)) a ≤ 255) :
    ds.foldl stepU8 (some a)
      = some (ds.foldl (fun acc c => 10 * acc + (c.toNat - 48)) a) := by
  induction ds generalizing a with
  | nil => rfl
  | cons c t ih =>
    rw [List.all_cons, Bool.and_eq_true] at hd
    rw [List.foldl_cons] at hb
    have hb2 : a * 10 + (c.toNat - 48) ≤ 255 := by
      have := foldVal_ge (10 * a + (c.toNat - 48)) t
      omega
    rw [List.foldl_cons, List.foldl_cons,
      show stepU8 (some a) c = some (a * 10 + (c.toNat - 48)) by
        simp [stepU8, hd.1, hb2],
      Nat.mul_comm a 10]
    exact ih hd.2 hb

lemma parseU8_nil : parseU8 [] = none := rfl

lemma parseU8_cons_plus (t : List Char) :
    parseU8 ('+' :: t) = if t.isEmpty then none else t.foldl stepU8 (some 0) := rfl

lemma parseU8_cons_ne_plus {c : Char} {t : List Char} (h : c ≠ '+') :
    parseU8 (c :: t) = (c :: t).foldl stepU8 (some 0) := by
  rw [parseU8.eq_def]
  split
  · simp_all
  · rename_i heq; rw [List.cons.injEq] at heq; exact absurd heq.1 h
  · rfl

lemma denotes_cons_ne_sign {c : Char} {t : List Char} (h1 : c ≠ '+') (h2 : c ≠ '-') :
    denotesDecimal (c :: t) = (decDigits (c :: t)).map Int.ofNat := by
  rw [denotesDecimal.eq_def]
  split
  · rename_i heq; rw [List.cons.injEq] at heq; exact absurd heq.1 h1
  · rename_i heq; rw [List.cons.injEq] at heq; exact absurd heq.1 h2
  · rfl

lemma parseU8_eq_some_iff {s : List Char} {n : Nat} (hn : n ≤ 255) :
    parseU8 s = some n ↔
      ((s ≠ [] ∧ s.all Char.isDigit = true ∧ charsVal s = n)
        ∨ (∃ t, s = '+' :: t ∧ t ≠ [] ∧ t.all Char.isDigit = true ∧ charsVal t = n)) := by
  constructor
  · intro h
    cases s with
    | nil => exact absurd h (by simp [parseU8_nil])
    | cons c t =>
      by_cases hc : c = '+'
      · subst hc
        rw [parseU8_cons_plus] at h
        by_cases ht : t.isEmpty
        · rw [if_pos ht] at h; exact absurd h (by simp)
        · rw [if_neg ht] at h
          obtain ⟨h1, h2⟩ := foldl_stepU8_some h
          exact Or.inr ⟨t, rfl, by simpa using ht, h1, h2.symm⟩
      · rw [parseU8_cons_ne_plus hc] at h
        obtain ⟨h1, h2⟩ := foldl_stepU8_some h
        exact Or.inl ⟨by simp, h1, h2.symm⟩
  · rintro (⟨hne, hall, hval⟩ | ⟨t, rfl, hne, hall, hval⟩)
    · cases s with
      | nil => exact absurd rfl hne
      | cons c t =>
        have hcd : c.isDigit = true := by
          rw [List.all_cons, Bool.and_eq_true] at hall
          exact hall.1
        have hb : charsVal (c :: t) ≤ 255 := by rw [hval]; exact hn
        rw [parseU8_cons_ne_plus (isDigit_ne_plus hcd),
          foldl_stepU8_of_le hall hb]
        exact congrArg some hval
    · have hb : charsVal t ≤ 255 := by rw [hval]; exact hn
      rw [parseU8_cons_plus, if_neg (by simpa using hne),
        foldl_stepU8_of_le hall hb]
      exact congrArg some hval

lemma colourOf_get_char (c : Colour) : colourOf c.get_char = some c := by
  cases c <;> rfl

lemma colourOf_eq_some {ch : Char} {c : Colour} :
    colourOf ch = some c ↔ ch = c.get_char := by
  constructor
  · unfold colourOf
    split_ifs with h1 h2 h3 h4 <;> intro h <;>
      first
      | (injection h with h; rw [← h]; simp_all [Colour.get_char])
      | exact absurd h (by simp)
  · rintro rfl
    exact colourOf_get_char c

lemma charBytes_get_char (c : Colour) : charBytes c.get_char = 1 := by
  cases c <;> rfl

lemma utf8Len_pos {s : List Char} (h : s ≠ []) : 1 ≤ utf8Len s := by
  cases s with
  | nil => exact absurd rfl h
  | cons c t =>
    rw [utf8Len_cons]
    have := charBytes_pos c
    omega

lemma from_str_nil : Tile.from_str [] = some (.err .noString) := rfl

lemma from_str_len_one {s : List Char} (h : utf8Len s = 1) :
    Tile.from_str s
      = if s = ['j'] then some (.ok .Joker) else some (.err .notJoker) := by
  unfold Tile.from_str
  rw [h]

lemma from_str_cons_ge_two {c : Char} {t : List Char}
    (h : 2 ≤ utf8Len (c :: t)) :
    Tile.from_str (c :: t) =
      match colourOf c with
      | none => some (.err .invalidColour)
      | some col =>
        match parseU8 t with
        | none => some (.err .invalidNumber)
        | some n =>
          if 1 ≤ n ∧ n ≤ 13 then some (.ok (.Normal col n))
          else some (.err .numberOutOfRange) := by
  unfold Tile.from_str
  obtain ⟨k, hk⟩ : ∃ k, utf8Len (c :: t) = k + 2 :=
    ⟨utf8Len (c :: t) - 2, by omega⟩
  rw [hk]
  rfl

lemma utf8Len_one_shape {c : Char} {t : List Char}
    (h : utf8Len (c :: t) = 1) : t = [] := by
  rw [utf8Len_cons] at h
  have := charBytes_pos c
  have ht : utf8Len t = 0 := by omega
  exact utf8Len_eq_zero.mp ht

lemma parseU8_iff_denotes {t : List Char} {n : Nat} (h1 : 1 ≤ n) (h13 : n ≤ 13) :
    parseU8 t = some n ↔ denotesDecimal t = some (n : Int) := by
  rw [parseU8_eq_some_iff (by omega)]
  constructor
  · rintro (⟨hne, hall, hval⟩ | ⟨r, rfl, hne, hall, hval⟩)
    · cases t with
      | nil => exact absurd rfl hne
      | cons c r =>
        have hcd : c.isDigit = true := by
          rw [List.all_cons, Bool.and_eq_true] at hall
          exact hall.1
        rw [denotes_cons_ne_sign (isDigit_ne_plus hcd) (isDigit_ne_minus hcd),
          decDigits, if_pos (by simp [hall]), hval]
        rfl
    · show ((decDigits r).map Int.ofNat) = some (n : Int)
      rw [decDigits, if_pos (by simp [hall, hne]), hval]
      rfl
  · intro h
    cases t with
    | nil => exact absurd h (by simp [denotesDecimal, decDigits])
    | cons c r =>
      by_cases hp : c = '+'
      · subst hp
        replace h : (decDigits r).map Int.ofNat = some (n : Int) := h
        rw [decDigits] at h
        split at h
        · rename_i hcond
          rw [Bool.and_eq_true, Bool.not_eq_eq_eq_not, Bool.not_true] at hcond
          refine Or.inr ⟨r, rfl, by simpa using hcond.1, hcond.2, ?_⟩
          simp at h
          exact_mod_cast h
        · exact absurd h (by simp)
      · by_cases hm : c = '-'
        · subst hm
          have hred : denotesDecimal ('-' :: r)
              = (decDigits r).map (fun m : Nat => -(m : Int)) := by
            rw [denotesDecimal.eq_def]
            split
            · rename_i heq
              rw [List.cons.injEq] at heq
              exact absurd heq.1 (by decide)
            · rename_i x rest heq
              rw [List.cons.injEq] at heq
              obtain ⟨-, rfl⟩ := heq
              cases hdd : decDigits r with
              | none => rfl
              | some m => rfl
            · rename_i hne1 hne2
              exact absurd rfl (hne2 r)
          rw [hred, Option.map_eq_some'] at h
          obtain ⟨m, hdec, hmn⟩ := h
          have hmn2 : -(m : Int) = (n : Int) := hmn
          have hm0 : 0 ≤ (m : Int) := Int.natCast_nonneg m
          have hn1 : 1 ≤ (n : Int) := by exact_mod_cast h1
          exfalso
          omega
        · rw [denotes_cons_ne_sign hp hm, decDigits] at h
          split at h
          · rename_i hcond
            rw [Bool.and_eq_true, Bool.not_eq_eq_eq_not, Bool.not_true] at hcond
            refine Or.inl ⟨by simp, hcond.2, ?_⟩
            simp at h
            exact_mod_cast h
          · exact absurd h (by simp)

lemma denotesDecimal_nil : denotesDecimal [] = none := rfl

lemma from_str_ge2_colour_none {c : Char} {t : List Char}
    (h : 2 ≤ utf8Len (c :: t)) (hco : colourOf c = none) :
    Tile.from_str (c :: t) = some (.err .invalidColour) := by
  rw [from_str_cons_ge_two h, hco]

lemma from_str_ge2_parse_none {c : Char} {t : List Char} {col : Colour}
    (h : 2 ≤ utf8Len (c :: t)) (hco : colourOf c = some col)
    (hp : parseU8 t = none) :
    Tile.from_str (c :: t) = some (.err .invalidNumber) := by
  rw [from_str_cons_ge_two h, hco, hp]

lemma from_str_ge2_ok {c : Char} {t : List Char} {col : Colour} {n : Nat}
    (h : 2 ≤ utf8Len (c :: t)) (hco : colourOf c = some col)
    (hp : parseU8 t = some n) (hr : 1 ≤ n ∧ n ≤ 13) :
    Tile.from_str (c :: t) = some (.ok (.Normal col n)) := by
  rw [from_str_cons_ge_two h, hco, hp]
  simp [hr.1, hr.2]

lemma from_str_ge2_range {c : Char} {t : List Char} {col : Colour} {n : Nat}
    (h : 2 ≤ utf8Len (c :: t)) (hco : colourOf c = some col)
    (hp : parseU8 t = some n) (hr : ¬(1 ≤ n ∧ n ≤ 13)) :
    Tile.from_str (c :: t) = some (.err .numberOutOfRange) := by
  rw [from_str_cons_ge_two h, hco, hp]
  simp [hr]

lemma from_str_ok_joker_iff {s : List Char} :
    Tile.from_str s = some (.ok .Joker) ↔ s = ['j'] := by
  constructor
  · intro h
    cases s with
    | nil => exact absurd (from_str_nil ▸ h) (by simp)
    | cons c t =>
      by_cases h1 : utf8Len (c :: t) = 1
      · have ht := utf8Len_one_shape h1
        subst ht
        rw [from_str_len_one h1] at h
        by_cases hj : ([c] : List Char) = ['j']
        · exact hj
        · rw [if_neg hj] at h
          exact absurd h (by simp)
      · have h2 : 2 ≤ utf8Len (c :: t) := by
          have := utf8Len_pos (s := c :: t) (by simp)
          omega
        cases hco : colourOf c with
        | none => exact absurd ((from_str_ge2_colour_none h2 hco) ▸ h) (by simp)
        | some col =>
          cases hp : parseU8 t with
          | none => exact absurd ((from_str_ge2_parse_none h2 hco hp) ▸ h) (by simp)
          | some m =>
            by_cases hr : 1 ≤ m ∧ m ≤ 13
            · exact absurd ((from_str_ge2_ok h2 hco hp hr) ▸ h) (by simp)
            · exact absurd ((from_str_ge2_range h2 hco hp hr) ▸ h) (by simp)
  · rintro rfl
    rfl

lemma from_str_ok_normal_iff {s : List Char} {col : Colour} {n : Nat} :
    Tile.from_str s = some (.ok (.Normal col n))
      ↔ ∃ t, s = col.get_char :: t ∧ parseU8 t = some n ∧ 1 ≤ n ∧ n ≤ 13 := by
  constructor
  · intro h
    cases s with
    | nil => exact absurd (from_str_nil ▸ h) (by simp)
    | cons c t =>
      by_cases h1 : utf8Len (c :: t) = 1
      · have ht := utf8Len_one_shape h1
        subst ht
        rw [from_str_len_one h1] at h
        by_cases hj : ([c] : List Char) = ['j']
        · rw [if_pos hj] at h
          exact absurd h (by simp)
        · rw [if_neg hj] at h
          exact absurd h (by simp)
      · have h2 : 2 ≤ utf8Len (c :: t) := by
          have := utf8Len_pos (s := c :: t) (by simp)
          omega
        cases hco : colourOf c with
        | none => exact absurd ((from_str_ge2_colour_none h2 hco) ▸ h) (by simp)
        | some col' =>
          cases hp : parseU8 t with
          | none => exact absurd ((from_str_ge2_parse_none h2 hco hp) ▸ h) (by simp)
          | some m =>
            by_cases hr : 1 ≤ m ∧ m ≤ 13
            · have heq := (from_str_ge2_ok h2 hco hp hr) ▸ h
              have hcols : col' = col ∧ m = n := by
                have := Option.some.inj heq
                have := PRes.ok.inj this
                exact ⟨(Tile.Normal.inj this).1, (Tile.Normal.inj this).2⟩
              obtain ⟨rfl, rfl⟩ := hcols
              exact ⟨t, by rw [colourOf_eq_some.mp hco], hp, hr⟩
            · exact absurd ((from_str_ge2_range h2 hco hp hr) ▸ h) (by simp)
  · rintro ⟨t, rfl, hp, hr⟩
    have h2 : 2 ≤ utf8Len (col.get_char :: t) := by
      rw [utf8Len_cons, charBytes_get_char]
      have ht : t ≠ [] := by
        rintro rfl
        exact absurd hp (by simp [parseU8_nil])
      have := utf8Len_pos ht
      omega
    exact from_str_ge2_ok h2 (colourOf_get_char col) hp hr

lemma from_str_isSome (s : List Char) : (Tile.from_str s).isSome = true := by
  cases s with
  | nil => rfl
  | cons c t =>
    by_cases h : utf8Len (c :: t) = 1
    · rw [from_str_len_one h]
      split <;> rfl
    · have h1 : 1 ≤ utf8Len (c :: t) := utf8Len_pos (by simp)
      have h2 : 2 ≤ utf8Len (c :: t) := by omega
      rw [from_str_cons_ge_two h2]
      cases colourOf c with
      | none => rfl
      | some col =>
        cases parseU8 t with
        | none => rfl
        | some n =>
          by_cases hr : 1 ≤ n ∧ n ≤ 13
          · simp [hr]
          · simp [hr]

lemma from_str_err_iff {s : List Char} :
    (∃ e, Tile.from_str s = some (.err e))
      ↔ ¬(s = ['j'] ∨ ∃ col n t, s = Colour.get_char col :: t
          ∧ parseU8 t = some n ∧ 1 ≤ n ∧ n ≤ 13) := by
  constructor
  · rintro ⟨e, he⟩ (hj | ⟨col, n, t, rfl, hp, hr⟩)
    · rw [from_str_ok_joker_iff.mpr hj] at he
      exact absurd he (by simp)
    · rw [from_str_ok_normal_iff.mpr ⟨t, rfl, hp, hr⟩] at he
      exact absurd he (by simp)
  · intro hneg
    have htot := from_str_isSome s
    rw [Option.isSome_iff_exists] at htot
    obtain ⟨r, hr⟩ := htot
    cases r with
    | ok t =>
      cases t with
      | Joker => exact absurd (Or.inl (from_str_ok_joker_iff.mp hr)) hneg
      | Normal c n =>
        obtain ⟨t, ht, hp, hrange⟩ := from_str_ok_normal_iff.mp hr
        exact absurd (Or.inr ⟨c, n, t, ht, hp, hrange⟩) hneg
    | err e => exact ⟨e, hr⟩

/-- A tile the game can contain: a Joker, or a Normal tile whose number
lies in `[1, 13]`. -/
def validTile : Tile → Prop
  | .Joker => True
  | .Normal _ n => 1 ≤ n ∧ n ≤ 13

instance (t : Tile) : Decidable (validTile t) := by
  cases t with
  | Normal c n => exact inferInstanceAs (Decidable (1 ≤ n ∧ n ≤ 13))
  | Joker => exact inferInstanceAs (Decidable True)

/-- C10: `Tile::from_str` is total.  On every input string — the empty
string, single characters other than `"j"`, and strings with multi-byte
characters included — it returns `Ok` or `Err` and never panics: the
`unwrap` on the first character is reached only on non-empty input, so
the panic outcome (`none`) is impossible. -/
theorem from_str_total (s : List Char) : (Tile.from_str s).isSome = true :=
  from_str_isSome s

/-- C6: `Tile::to_string` renders a Normal tile as its colour character
followed by the decimal digits of its number followed by one trailing
space, and a Joker as `"j"` followed by one trailing space; the digit
block is a non-empty string of decimal digits whose value is the
number. -/
theorem to_string_spec :
    (∀ c n, Tile.to_string (.Normal c n) = c.get_char :: (numChars n ++ [' '])
      ∧ numChars n ≠ [] ∧ (numChars n).all Char.isDigit = true
      ∧ charsVal (numChars n) = n)
    ∧ Tile.to_string .Joker = ['j', ' '] :=
  ⟨fun c n =>
    ⟨rfl, numChars_ne_nil n, numChars_all_digits n, charsVal_numChars n⟩, rfl⟩

/-- C1 (counterexample): parsing the rendered form of a valid tile does
not return the tile — the rendering carries a trailing space, which the
parser rejects; at the Joker, `from_str (to_string Joker)` is the
invalid-colour error, not `Ok(Joker)`. -/
theorem roundtrip_render_parse_cex :
    Tile.from_str (Tile.to_string .Joker) = some (.err .invalidColour)
      ∧ Tile.from_str (Tile.to_string .Joker) ≠ some (.ok .Joker) := by
  decide

/-- C1 (amended): for every valid tile, parsing the rendered form with
its single trailing space removed yields the original tile. -/
theorem roundtrip_render_parse (t : Tile) (h : validTile t) :
    Tile.from_str ((Tile.to_string t).dropLast) = some (.ok t) := by
  cases t with
  | Joker => rfl
  | Normal c n =>
    obtain ⟨h1, h13⟩ := h
    have hds : (Tile.to_string (.Normal c n)).dropLast
        = c.get_char :: numChars n := by
      show (c.get_char :: (numChars n ++ [' '])).dropLast = _
      rw [show c.get_char :: (numChars n ++ [' '])
          = (c.get_char :: numChars n) ++ [' '] from rfl]
      exact List.dropLast_concat
    rw [hds]
    have hnn := numChars_ne_nil n
    have hlen : 2 ≤ utf8Len (c.get_char :: numChars n) := by
      rw [utf8Len_cons, charBytes_get_char]
      have := utf8Len_pos hnn
      omega
    have hp : parseU8 (numChars n) = some n :=
      (parseU8_eq_some_iff (by omega)).mpr
        (Or.inl ⟨hnn, numChars_all_digits n, charsVal_numChars n⟩)
    rw [from_str_cons_ge_two hlen]
    simp [colourOf_get_char, hp, h1, h13]

/-- Witness for the amended C1 at a concrete valid tile. -/
theorem roundtrip_render_parse_witness :
    Tile.from_str ((Tile.to_string (.Normal .Red 12)).dropLast)
      = some (.ok (.Normal .Red 12)) :=
  roundtrip_render_parse (.Normal .Red 12) (by decide)

/-- C2: `Tile::from_str` returns `Ok(Joker)` exactly on the single
character `"j"`; returns `Ok(Normal(c, n))` exactly when the first
character is the colour letter of `c` (`r`, `b`, `y`, `x`) and the
remainder is a decimal integer denoting `n` with `n` in `[1, 13]`; and
returns an error on every other string. -/
theorem from_str_grammar (s : List Char) :
    (Tile.from_str s = some (.ok .Joker) ↔ s = ['j'])
    ∧ (∀ col n, Tile.from_str s = some (.ok (.Normal col n))
        ↔ ∃ t, s = col.get_char :: t ∧ denotesDecimal t = some (n : Int)
            ∧ 1 ≤ n ∧ n ≤ 13)
    ∧ ((∃ e, Tile.from_str s = some (.err e))
        ↔ ¬(s = ['j'] ∨ ∃ col n t, s = Colour.get_char col :: t
            ∧ denotesDecimal t = some ((n : Nat) : Int) ∧ 1 ≤ n ∧ n ≤ 13)) := by
  refine ⟨from_str_ok_joker_iff, ?_, ?_⟩
  · intro col n
    rw [from_str_ok_normal_iff]
    constructor
    · rintro ⟨t, rfl, hp, h1, h13⟩
      exact ⟨t, rfl, (parseU8_iff_denotes h1 h13).mp hp, h1, h13⟩
    · rintro ⟨t, rfl, hd, h1, h13⟩
      exact ⟨t, rfl, (parseU8_iff_denotes h1 h13).mpr hd, h1, h13⟩
  · rw [from_str_err_iff]
    constructor
    · intro h hpos
      apply h
      rcases hpos with hj | ⟨col, n, t, rfl, hd, h1, h13⟩
      · exact Or.inl hj
      · exact Or.inr ⟨col, n, t, rfl, (parseU8_iff_denotes h1 h13).mpr hd, h1, h13⟩
    · intro h hpos
      apply h
      rcases hpos with hj | ⟨col, n, t, rfl, hp, h1, h13⟩
      · exact Or.inl hj
      · exact Or.inr ⟨col, n, t, rfl, (parseU8_iff_denotes h1 h13).mp hp, h1, h13⟩

/-- C4: a `Tile::from_str` error always falls into one of the four
parse-error categories of the specification — empty token, unknown
colour letter, non-numeric number, number out of `[1, 13]` — and,
conversely, every input in one of those categories produces an error,
so the categories are exactly the erroneous inputs. -/
theorem from_str_error_taxonomy :
    (∀ s e, Tile.from_str s = some (.err e) →
      (isEmptyTok s || isUnknownColourTok s || isNonNumericTok s
        || isOutOfRangeTok s) = true)
    ∧ (∀ s, (isEmptyTok s || isUnknownColourTok s || isNonNumericTok s
        || isOutOfRangeTok s) = true → ∃ e, Tile.from_str s = some (.err e)) := by
  constructor
  · intro s e h
    cases s with
    | nil => rfl
    | cons c t =>
      by_cases h1 : utf8Len (c :: t) = 1
      · have ht := utf8Len_one_shape h1
        subst ht
        rw [from_str_len_one h1] at h
        by_cases hj : ([c] : List Char) = ['j']
        · rw [if_pos hj] at h
          exact absurd h (by simp)
        · cases hco : colourOf c with
          | none => simp [isUnknownColourTok, hj, hco]
          | some col => simp [isNonNumericTok, hco, parseU8_nil]
      · have h2 : 2 ≤ utf8Len (c :: t) := by
          have := utf8Len_pos (s := c :: t) (by simp)
          omega
        have hnej : (c :: t) ≠ ['j'] := by
          intro heq
          rw [heq] at h1
          exact h1 rfl
        cases hco : colourOf c with
        | none => simp [isUnknownColourTok, hnej, hco]
        | some col =>
          cases hp : parseU8 t with
          | none => simp [isNonNumericTok, hco, hp]
          | some m =>
            by_cases hr : 1 ≤ m ∧ m ≤ 13
            · exact absurd ((from_str_ge2_ok h2 hco hp hr) ▸ h) (by simp)
            · have : (isOutOfRangeTok (c :: t)) = true := by
                simp [isOutOfRangeTok, hco, hp]
                omega
              simp [this]
  · intro s hcat
    cases s with
    | nil => exact ⟨.noString, rfl⟩
    | cons c t =>
      simp only [isEmptyTok, isUnknownColourTok, isNonNumericTok,
        isOutOfRangeTok, List.isEmpty_cons, Bool.or_eq_true,
        Bool.and_eq_true, decide_eq_true_eq, Option.isNone_iff_eq_none,
        Option.isSome_iff_exists] at hcat
      rcases hcat with ((hfalse | ⟨hnej, hco⟩) | ⟨⟨col, hco⟩, hp⟩) | ⟨⟨col, hco⟩, hout⟩
      · exact absurd hfalse (by simp)
      · by_cases h1 : utf8Len (c :: t) = 1
        · have ht := utf8Len_one_shape h1
          subst ht
          rw [from_str_len_one h1, if_neg hnej]
          exact ⟨.notJoker, rfl⟩
        · have h2 : 2 ≤ utf8Len (c :: t) := by
            have := utf8Len_pos (s := c :: t) (by simp)
            omega
          exact ⟨.invalidColour, from_str_ge2_colour_none h2 hco⟩
      · by_cases h1 : utf8Len (c :: t) = 1
        · have ht := utf8Len_one_shape h1
          subst ht
          have hnej : ([c] : List Char) ≠ ['j'] := by
            intro heq
            rw [List.cons.injEq] at heq
            rw [heq.1] at hco
            rw [show colourOf 'j' = none by decide] at hco
            exact absurd hco (by simp)
          rw [from_str_len_one h1, if_neg hnej]
          exact ⟨.notJoker, rfl⟩
        · have h2 : 2 ≤ utf8Len (c :: t) := by
            have := utf8Len_pos (s := c :: t) (by simp)
            omega
          exact ⟨.invalidNumber, from_str_ge2_parse_none h2 hco hp⟩
      · rcases hmatch : parseU8 t with _ | m
        · rw [hmatch] at hout
          exact absurd hout (by simp)
        · rw [hmatch] at hout
          have hm : m < 1 ∨ 13 < m := by
            simpa using hout
          have hne : t ≠ [] := by
            rintro rfl
            exact absurd hmatch (by simp [parseU8_nil])
          have h2 : 2 ≤ utf8Len (c :: t) := by
            rw [utf8Len_cons]
            have := charBytes_pos c
            have := utf8Len_pos hne
            omega
          exact ⟨.numberOutOfRange,
            from_str_ge2_range h2 hco hmatch (by omega)⟩

/-- Witness for C4: the empty string errors and falls into the
empty-token category. -/
theorem from_str_error_taxonomy_witness :
    (isEmptyTok [] || isUnknownColourTok [] || isNonNumericTok []
      || isOutOfRangeTok []) = true :=
  from_str_error_taxonomy.1 [] .noString rfl

lemma tileCmp_normal_lt_iff {c₁ c₂ : Colour} {n₁ n₂ : Nat} :
    Tile.cmp (.Normal c₁ n₁) (.Normal c₂ n₂) = .lt
      ↔ (Colour.cmp c₁ c₂ = .lt ∨ (c₁ = c₂ ∧ n₁ < n₂)) := by
  show (Colour.cmp c₁ c₂).then (natCmp n₁ n₂) = .lt ↔ _
  cases h : Colour.cmp c₁ c₂ with
  | lt => simp [Ordering.then, h]
  | eq => simp [Ordering.then, natCmp_eq_lt, h, colourCmp_eq_eq.mp h]
  | gt =>
    simp only [Ordering.then]
    constructor
    · intro hx
      exact absurd hx (by simp)
    · rintro (hx | ⟨rfl, -⟩)
      · exact absurd hx (by simp)
      · rw [colourCmp_eq_eq.mpr rfl] at h
        exact absurd h (by simp)

/-- C5: the derived comparison on `Tile` is a strict total order
consistent with equality: `cmp` reports `eq` exactly on equal tiles,
`lt` and `gt` are opposite, `lt` is transitive, and any two distinct
tiles are strictly comparable; moreover every Normal tile compares
below Joker, two Normal tiles compare lexicographically by colour then
number, and the colours are ordered Red < Blue < Yellow < Black. -/
theorem tile_order_spec :
    (∀ a b : Tile, Tile.cmp a b = .eq ↔ a = b)
    ∧ (∀ a b : Tile, Tile.cmp a b = .lt ↔ Tile.cmp b a = .gt)
    ∧ (∀ a b c : Tile,
        Tile.cmp a b = .lt → Tile.cmp b c = .lt → Tile.cmp a c = .lt)
    ∧ (∀ a b : Tile, a ≠ b → Tile.cmp a b = .lt ∨ Tile.cmp b a = .lt)
    ∧ (∀ c n, Tile.cmp (.Normal c n) .Joker = .lt)
    ∧ (∀ c₁ n₁ c₂ n₂, Tile.cmp (.Normal c₁ n₁) (.Normal c₂ n₂) = .lt
        ↔ (Colour.cmp c₁ c₂ = .lt ∨ (c₁ = c₂ ∧ n₁ < n₂)))
    ∧ (Colour.cmp .Red .Blue = .lt ∧ Colour.cmp .Blue .Yellow = .lt
        ∧ Colour.cmp .Yellow .Black = .lt) := by
  refine ⟨fun a b => Tile.cmp_eq_eq, fun a b => Tile.cmp_eq_lt_iff_gt,
    fun a b c => Tile.lt_trans, ?_, fun c n => rfl,
    fun c₁ n₁ c₂ n₂ => tileCmp_normal_lt_iff, by decide, by decide, by decide⟩
  intro a b hne
  cases h : Tile.cmp a b with
  | lt => exact Or.inl rfl
  | eq => exact absurd (Tile.cmp_eq_eq.mp h) hne
  | gt => exact Or.inr (Tile.cmp_eq_lt_iff_gt.mpr h)

/-- Witness for C5: the transitivity component at concrete tiles. -/
theorem tile_order_spec_witness :
    Tile.cmp (.Normal .Red 1) (.Normal .Blue 2) = .lt :=
  tile_order_spec.2.2.1 (.Normal .Red 1) (.Normal .Red 5) (.Normal .Blue 2)
    (by decide) (by decide)

/-- C9: `add_to_board` changes only the board — the hand is untouched —
and `add_to_hand` changes only the hand — the board is untouched. -/
theorem add_frame_spec (s : State) (t : Tile) :
    (s.add_to_board t).hand = s.hand ∧ (s.add_to_hand t).board = s.board :=
  ⟨rfl, rfl⟩

lemma chunks10_nil : chunks10 [] = [] := by rw [chunks10]

lemma chunks10_cons (x : Tile) (xs : List Tile) :
    chunks10 (x :: xs)
      = (x :: xs).take 10 :: chunks10 ((x :: xs).drop 10) := by
  rw [chunks10]

lemma chunks10_flatten (l : List Tile) : (chunks10 l).flatten = l := by
  suffices H : ∀ n (l : List Tile), l.length ≤ n → (chunks10 l).flatten = l from
    H l.length l (Nat.le_refl _)
  intro n
  induction n with
  | zero =>
    intro l hl
    have hnil : l = [] := List.eq_nil_of_length_eq_zero (by omega)
    subst hnil
    rw [chunks10_nil]
    rfl
  | succ n ih =>
    intro l hl
    cases l with
    | nil => rw [chunks10_nil]; rfl
    | cons x xs =>
      rw [chunks10_cons, List.flatten_cons,
        ih _ (by simp at hl ⊢; omega), List.take_append_drop]

lemma chunks10_sizes {l : List Tile} :
    ∀ c ∈ chunks10 l, 0 < c.length ∧ c.length ≤ 10 := by
  suffices H : ∀ n (l : List Tile), l.length ≤ n →
      ∀ c ∈ chunks10 l, 0 < c.length ∧ c.length ≤ 10 from
    H l.length l (Nat.le_refl _)
  intro n
  induction n with
  | zero =>
    intro l hl c hc
    have hnil : l = [] := List.eq_nil_of_length_eq_zero (by omega)
    subst hnil
    rw [chunks10_nil] at hc
    exact absurd hc (by simp)
  | succ n ih =>
    intro l hl c hc
    cases l with
    | nil =>
      rw [chunks10_nil] at hc
      exact absurd hc (by simp)
    | cons x xs =>
      rw [chunks10_cons, List.mem_cons] at hc
      rcases hc with rfl | hc
      · refine ⟨by simp [List.length_take], by simp [List.length_take]⟩
      · exact ih _ (by simp at hl ⊢; omega) c hc

lemma chunks10_full {l : List Tile} :
    ∀ c ∈ (chunks10 l).dropLast, c.length = 10 := by
  suffices H : ∀ n (l : List Tile), l.length ≤ n →
      ∀ c ∈ (chunks10 l).dropLast, c.length = 10 from
    H l.length l (Nat.le_refl _)
  intro n
  induction n with
  | zero =>
    intro l hl c hc
    have hnil : l = [] := List.eq_nil_of_length_eq_zero (by omega)
    subst hnil
    rw [chunks10_nil] at hc
    exact absurd hc (by simp)
  | succ n ih =>
    intro l hl c hc
    cases l with
    | nil =>
      rw [chunks10_nil] at hc
      exact absurd hc (by simp)
    | cons x xs =>
      rw [chunks10_cons] at hc
      cases hd : chunks10 ((x :: xs).drop 10) with
      | nil => rw [hd] at hc; exact absurd hc (by simp)
      | cons d ds =>
        rw [hd, List.dropLast_cons_of_ne_nil (by simp), List.mem_cons] at hc
        have hlong : 10 < (x :: xs).length := by
          by_contra hshort
          have hdr : (x :: xs).drop 10 = [] := by
            rw [List.drop_eq_nil_iff]
            omega
          rw [hdr, chunks10_nil] at hd
          exact absurd hd (by simp)
        rcases hc with rfl | hc
        · rw [List.length_take]
          exact Nat.min_eq_left (by omega)
        · exact ih _ (by simp at hl ⊢; omega) c (hd ▸ hc)

lemma foldl_append_to_string (ts : List Tile) (s : List Char) :
    ts.foldl (fun s2 t => s2 ++ t.to_string) s
      = s ++ (ts.map Tile.to_string).flatten := by
  induction ts generalizing s with
  | nil => simp
  | cons t rest ih =>
    rw [List.foldl_cons, ih]
    simp [List.append_assoc]

lemma format_list_foldl_aux (cs : List (List Tile)) (s0 : List Char) :
    cs.foldl
      (fun s ts => (ts.foldl (fun s2 t => s2 ++ t.to_string) s) ++ ['\n']) s0
      = s0 ++ (cs.map
          (fun ts => (ts.map Tile.to_string).flatten ++ ['\n'])).flatten := by
  induction cs generalizing s0 with
  | nil => simp
  | cons ts rest ih =>
    rw [List.foldl_cons, foldl_append_to_string, ih]
    simp [List.append_assoc]

lemma to_string_no_newline (t : Tile) : '\n' ∉ Tile.to_string t := by
  cases t with
  | Joker => decide
  | Normal c n =>
    show '\n' ∉ c.get_char :: (numChars n ++ [' '])
    rw [List.mem_cons]
    rintro (heq | hmem)
    · cases c <;> exact absurd heq (by decide)
    · rw [List.mem_append] at hmem
      rcases hmem with hnum | hsp
      · have := List.all_eq_true.mp (numChars_all_digits n) _ hnum
        exact absurd this (by decide)
      · exact absurd hsp (by decide)

/-- C7: `Tile::format_list` renders the tiles in order, ten per line:
the output is the concatenation over the chunks of ten consecutive
tiles of each chunk's renderings followed by exactly one newline; the
chunks concatenate back to the input, every chunk holds between one
and ten tiles, every chunk but the last holds exactly ten, and no tile
rendering contains a newline (so each line ends in exactly one). -/
theorem format_list_spec (l : List Tile) :
    Tile.format_list l
        = ((chunks10 l).map
            (fun ts => (ts.map Tile.to_string).flatten ++ ['\n'])).flatten
    ∧ (chunks10 l).flatten = l
    ∧ (∀ c ∈ chunks10 l, 0 < c.length ∧ c.length ≤ 10)
    ∧ (∀ c ∈ (chunks10 l).dropLast, c.length = 10)
    ∧ (∀ t : Tile, '\n' ∉ Tile.to_string t) := by
  refine ⟨?_, chunks10_flatten l, chunks10_sizes, chunks10_full,
    to_string_no_newline⟩
  unfold Tile.format_list
  rw [format_list_foldl_aux]
  simp

/-- Witness for C7 at a concrete list: the single chunk of a
one-element list contains between one and ten tiles. -/
theorem format_list_spec_witness :
    0 < ([Tile.Joker] : List Tile).length
      ∧ ([Tile.Joker] : List Tile).length ≤ 10 :=
  (format_list_spec [Tile.Joker]).2.2.1 [Tile.Joker]
    (by simp [chunks10_cons, chunks10_nil])

lemma sorted_le_of_le {v : List Tile} (hs : List.Pairwise Tile.le v)
    {i j : Nat} (hij : i ≤ j) (hj : j < v.length) :
    Tile.le (v.get ⟨i, Nat.lt_of_le_of_lt hij hj⟩) (v.get ⟨j, hj⟩) := by
  rcases Nat.lt_or_ge i j with hlt | hge
  · exact List.pairwise_iff_get.mp hs ⟨i, Nat.lt_of_le_of_lt hij hj⟩ ⟨j, hj⟩ hlt
  · have heq : i = j := Nat.le_antisymm hij hge
    subst heq
    exact Tile.le_refl _

lemma mem_insertIdx_cases {l : List Tile} {i : Nat} {x y : Tile}
    (h : y ∈ l.insertIdx i x) : y = x ∨ y ∈ l := by
  induction l generalizing i with
  | nil =>
    cases i with
    | zero => exact Or.inl (by simpa using h)
    | succ i => exact absurd h (by simp)
  | cons a t ih =>
    cases i with
    | zero =>
      rw [show (a :: t).insertIdx 0 x = x :: a :: t from rfl,
        List.mem_cons] at h
      rcases h with rfl | h
      · exact Or.inl rfl
      · exact Or.inr h
    | succ i =>
      rw [show (a :: t).insertIdx (i + 1) x = a :: t.insertIdx i x from rfl,
        List.mem_cons] at h
      rcases h with rfl | h
      · exact Or.inr (List.mem_cons_self _ _)
      · rcases ih h with rfl | h2
        · exact Or.inl rfl
        · exact Or.inr (List.mem_cons_of_mem _ h2)

lemma sorted_insertIdx {v : List Tile} {x : Tile} {i : Nat}
    (hs : List.Pairwise Tile.le v)
    (h1 : ∀ j, j < i → (hj : j < v.length) → Tile.le (v.get ⟨j, hj⟩) x)
    (h2 : ∀ j, i ≤ j → (hj : j < v.length) → Tile.le x (v.get ⟨j, hj⟩)) :
    List.Pairwise Tile.le (v.insertIdx i x) := by
  induction v generalizing i with
  | nil =>
    cases i with
    | zero => simp
    | succ i => simp
  | cons a t ih =>
    cases i with
    | zero =>
      rw [show (a :: t).insertIdx 0 x = x :: a :: t from rfl]
      refine List.Pairwise.cons ?_ hs
      intro y hy
      have hxa : Tile.le x a := h2 0 (Nat.zero_le 0) (by simp)
      rw [List.mem_cons] at hy
      rcases hy with rfl | hy
      · exact hxa
      · exact Tile.le_trans hxa ((List.pairwise_cons.mp hs).1 y hy)
    | succ i =>
      rw [show (a :: t).insertIdx (i + 1) x = a :: t.insertIdx i x from rfl]
      obtain ⟨ha, ht⟩ := List.pairwise_cons.mp hs
      refine List.Pairwise.cons ?_ ?_
      · intro y hy
        rcases mem_insertIdx_cases hy with rfl | hy2
        · exact h1 0 (Nat.succ_pos i) (by simp)
        · exact ha y hy2
      · exact ih ht
          (fun j hj hjl => h1 (j + 1) (by omega) (by simpa using hjl))
          (fun j hj hjl => h2 (j + 1) (by omega) (by simpa using hjl))

lemma bsLoop_inv (v : List Tile) (x : Tile)
    (hs : List.Pairwise Tile.le v) :
    ∀ fuel left right, right - left ≤ fuel → left ≤ right →
      right ≤ v.length →
      (∀ j, j < left → (hj : j < v.length) → Tile.le (v.get ⟨j, hj⟩) x) →
      (∀ j, right ≤ j → (hj : j < v.length) → Tile.le x (v.get ⟨j, hj⟩)) →
      (bsLoop v x left right).idx ≤ v.length
        ∧ (∀ j, j < (bsLoop v x left right).idx → (hj : j < v.length) →
            Tile.le (v.get ⟨j, hj⟩) x)
        ∧ (∀ j, (bsLoop v x left right).idx ≤ j → (hj : j < v.length) →
            Tile.le x (v.get ⟨j, hj⟩)) := by
  intro fuel
  induction fuel with
  | zero =>
    intro left right hfuel hlr hrlen hleft hright
    have heq : left = right := by omega
    rw [bsLoop, dif_neg (by omega)]
    exact ⟨by simpa [BSearch.idx] using by omega,
      fun j hj hjl => hleft j (by simpa [BSearch.idx] using hj) hjl,
      fun j hj hjl => hright j (by rw [← heq]; simpa [BSearch.idx] using hj) hjl⟩
  | succ fuel ih =>
    intro left right hfuel hlr hrlen hleft hright
    by_cases hlt : left < right
    · have hmid : left + (right - left) / 2 < right := by
        have := Nat.div_lt_self (by omega : 0 < right - left) (by omega : 1 < 2)
        omega
      have hmidlen : left + (right - left) / 2 < v.length := by omega
      have hget : v.getD (left + (right - left) / 2) Tile.Joker
          = v.get ⟨left + (right - left) / 2, hmidlen⟩ := by
        rw [List.getD_eq_getElem v Tile.Joker hmidlen]
        simp
      rw [bsLoop, dif_pos hlt, hget]
      cases hc : Tile.cmp (v.get ⟨left + (right - left) / 2, hmidlen⟩) x with
      | lt =>
        apply ih (left + (right - left) / 2 + 1) right (by omega) (by omega)
          hrlen
        · intro j hj hjl
          have hjm : j ≤ left + (right - left) / 2 := by omega
          exact Tile.le_trans
            (sorted_le_of_le hs hjm hmidlen)
            (Tile.lt_le hc)
        · exact hright
      | gt =>
        apply ih left (left + (right - left) / 2) (by omega) (by omega)
          (by omega) hleft
        intro j hj hjl
        have hxm : Tile.le x (v.get ⟨left + (right - left) / 2, hmidlen⟩) :=
          Tile.lt_le (Tile.cmp_eq_lt_iff_gt.mpr hc)
        exact Tile.le_trans hxm (sorted_le_of_le hs hj hjl)
      | eq =>
        have hxm : v.get ⟨left + (right - left) / 2, hmidlen⟩ = x :=
          Tile.cmp_eq_eq.mp hc
        refine ⟨by simp [BSearch.idx]; omega, ?_, ?_⟩
        · intro j hj hjl
          simp only [BSearch.idx] at hj
          rw [← hxm]
          exact sorted_le_of_le hs (by omega) hmidlen
        · intro j hj hjl
          simp only [BSearch.idx] at hj
          rw [← hxm]
          exact sorted_le_of_le hs hj hjl
    · rw [bsLoop, dif_neg hlt]
      have hmm : left = right := by omega
      exact ⟨by simp [BSearch.idx]; omega,
        fun j hj hjl => hleft j (by simpa [BSearch.idx] using hj) hjl,
        fun j hj hjl => hright j (by rw [← hmm]; simpa [BSearch.idx] using hj) hjl⟩

lemma binary_search_insert_sorted {v : List Tile} {x : Tile}
    (hs : List.Pairwise Tile.le v) :
    List.Pairwise Tile.le (v.insertIdx (binary_search v x).idx x) := by
  obtain ⟨hb, h1, h2⟩ :=
    bsLoop_inv v x hs v.length 0 v.length (by omega) (Nat.zero_le _)
      (Nat.le_refl _)
      (fun j hj hjl => absurd hj (by omega))
      (fun j hj hjl => absurd hjl (by omega))
  exact sorted_insertIdx hs h1 h2

/-- C8: `sorted_vec_insert` inserts the new tile at the index reported
by `binary_search`, identically in the `Ok` (already present) and
`Err` (absent) cases; `add_to_board` and `add_to_hand` both insert
through it, and inserting into a non-decreasingly sorted deque leaves
it sorted. -/
theorem sorted_vec_insert_spec :
    (∀ v x, State.sorted_vec_insert v x
        = v.insertIdx (binary_search v x).idx x)
    ∧ (∀ (s : State) (t : Tile),
        (s.add_to_board t).board = State.sorted_vec_insert s.board t
        ∧ (s.add_to_hand t).hand = State.sorted_vec_insert s.hand t)
    ∧ (∀ v x, List.Pairwise Tile.le v →
        List.Pairwise Tile.le (State.sorted_vec_insert v x)) := by
  have hins : ∀ v x, State.sorted_vec_insert v x
      = v.insertIdx (binary_search v x).idx x := by
    intro v x
    unfold State.sorted_vec_insert
    cases binary_search v x <;> rfl
  refine ⟨hins, fun s t => ⟨rfl, rfl⟩, ?_⟩
  intro v x hs
  rw [hins]
  exact binary_search_insert_sorted hs

/-- Witness for C8: inserting into a concrete sorted deque keeps it
sorted. -/
theorem sorted_vec_insert_spec_witness :
    List.Pairwise Tile.le
      (State.sorted_vec_insert [.Normal .Red 1, .Normal .Red 3]
        (.Normal .Red 2)) :=
  sorted_vec_insert_spec.2.2 [.Normal .Red 1, .Normal .Red 3]
    (.Normal .Red 2) (by decide)

/-- C3: conservation for the solver, modelled from the spec — the
multiset union of the returned `new_board` and `remaining_hand` equals
the multiset union of the input `board` and `hand`; no tile is created
or lost by a solve call. -/
theorem solve_conservation (board hand : List Tile) :
    ((solve board hand).1 : Multiset Tile) + ((solve board hand).2 : Multiset Tile)
      = (board : Multiset Tile) + (hand : Multiset Tile) := by
  unfold solve
  cases hp : pickBest (solveCands board hand) with
  | none => rfl
  | some c =>
    obtain ⟨U, p⟩ := c
    have hsub : U.Sublist (board ++ hand) :=
      solveCands_sublist (pickBest_mem hp)
    show ((U.mergeSort tileLeB : List Tile) : Multiset Tile)
        + ((((board ++ hand).diff U).mergeSort tileLeB : List Tile) : Multiset Tile)
        = (board : Multiset Tile) + (hand : Multiset Tile)
    rw [Multiset.coe_eq_coe.mpr (List.mergeSort_perm U tileLeB),
      Multiset.coe_eq_coe.mpr (List.mergeSort_perm ((board ++ hand).diff U) tileLeB),
      ← Multiset.coe_sub,
      add_tsub_cancel_of_le (Multiset.coe_le.mpr hsub.subperm),
      Multiset.coe_add]

end Rummikub
